import Mathlib

/-! # PIFP Stellar — Oracle Verification & Quorum Consensus: verification development

Shallow embedding of the oracle quorum subsystem of the `pifp-stellar`
repository and of the keeper's task registry, together with proofs of the
spec's claims about them.

Sources embedded here:
* the SQL migration creating the `quorum_settings` and `oracle_votes` tables
  (unique-pair constraint, single-row settings, default threshold);
* the oracle service documentation and the full-lifecycle example, which fix
  the contract error-code table (1, 3, 6, 14, 16), the dry-run behaviour
  (fetch, hash, log, no submission) and the classification of the
  "already completed" contract answer;
* the spec's Vote Ledger / Quorum Evaluator / Orchestrator contracts, for the
  operations whose Rust implementation is not part of the source tree
  (marked `Modelled from the spec:` below);
* `keeper/src/taskRegistry.js` (JSON task persistence), together with an
  executable model of `JSON.stringify(·, null, 2)` and `JSON.parse`
  restricted to integer numerals.
-/

namespace Pifp

/-! ## Vote ledger (table `oracle_votes`) -/

/-- A row of the `oracle_votes` table of the quorum migration:
`project_id TEXT NOT NULL`, `oracle_address TEXT NOT NULL`,
`proof_hash TEXT NOT NULL`.  The surrogate `id` and the `created_at`
timestamp play no role in any claim and are omitted. -/
structure OracleVote where
  project_id : String
  oracle_address : String
  proof_hash : String
deriving DecidableEq

/-- The vote ledger: the rows of `oracle_votes`, in insertion order. -/
abbrev Ledger := List OracleVote

/-- Row predicate for the `UNIQUE(project_id, oracle_address)` key. -/
def pairMatch (p a : String) (v : OracleVote) : Bool :=
  v.project_id == p && v.oracle_address == a

/-- Row predicate used by the tally query over the index
`idx_oracle_votes_project_hash (project_id, proof_hash)`. -/
def hashMatch (p h : String) (v : OracleVote) : Bool :=
  v.project_id == p && v.proof_hash == h

/-- Number of ledger rows for one `(project_id, oracle_address)` pair. -/
def countPair (l : Ledger) (p a : String) : Nat :=
  (l.filter (pairMatch p a)).length

/-- The `UNIQUE(project_id, oracle_address)` constraint of `oracle_votes`,
as a state invariant: at most one row per pair. -/
def PairUnique (l : Ledger) : Prop :=
  ∀ p a, countPair l p a ≤ 1

/-- Outcome vocabulary of the ledger write. -/
inductive VoteOutcome
  | Inserted
  | AlreadyRecorded
deriving DecidableEq

/-- Modelled from the spec: `recordVote(projectId, oracleAddress, digest) ->
VoteOutcome` (§4.3).  The Rust implementation of the ledger write is not in
the source tree; only the `oracle_votes` schema is, whose
`UNIQUE(project_id, oracle_address)` constraint forces the
insert-or-ignore shape used here: a call for a pair that already has a row
leaves the table unchanged and reports `AlreadyRecorded` (first-vote-wins),
otherwise it inserts the single new row. -/
def recordVote (l : Ledger) (p a h : String) : Ledger × VoteOutcome :=
  if l.any (pairMatch p a) then
    (l, .AlreadyRecorded)
  else
    (l ++ [⟨p, a, h⟩], .Inserted)

/-- The digest currently stored for a pair, if any. -/
def lookupVote (l : Ledger) (p a : String) : Option String :=
  (l.find? (pairMatch p a)).map (·.proof_hash)

/-- Modelled from the spec: `tally(projectId, digest)` (§4.3) — the count
of rows matching the project and the digest, i.e. the
`SELECT COUNT(*) ... WHERE project_id = ? AND proof_hash = ?` read served
by `idx_oracle_votes_project_hash`; under the table's unique-pair
constraint this is the count of distinct oracle addresses (claim C4). -/
def tally (l : Ledger) (p h : String) : Nat :=
  (l.filter (hashMatch p h)).length

/-- A sequence of `recordVote` calls for one pair, left to right. -/
def applyVotes (l : Ledger) (p a : String) (ds : List String) : Ledger :=
  ds.foldl (fun acc d => (recordVote acc p a d).1) l

/-! ## Quorum evaluator -/

/-- Result vocabulary of the quorum evaluation. -/
inductive QuorumDecision
  | ReachedQuorum (count threshold : Nat)
  | Pending (count threshold : Nat)
deriving DecidableEq

/-- Modelled from the spec: `evaluate(projectId, digest) ->
ReachedQuorum(count, threshold) | Pending(count, threshold)` (§4.4), a pure
function of the current ledger state and the configured threshold. -/
def evaluate (l : Ledger) (threshold : Nat) (p h : String) : QuorumDecision :=
  let c := tally l p h
  if threshold ≤ c then .ReachedQuorum c threshold else .Pending c threshold

/-! ## Quorum settings store (table `quorum_settings`) -/

/-- A row of the `quorum_settings` table:
`id INTEGER PRIMARY KEY CHECK (id = 1)`,
`threshold INTEGER NOT NULL DEFAULT 1`. -/
structure SettingsRow where
  id : Int
  threshold : Int
deriving DecidableEq

/-- The `quorum_settings` table contents. -/
abbrev SettingsTable := List SettingsRow

/-- The migration's seed,
`INSERT OR IGNORE INTO quorum_settings (id, threshold) VALUES (1, 1)`:
inserts the default row unless a row with id 1 already exists (the
`CHECK (id = 1)` column constraint admits no other id). -/
def migrateSettings (s : SettingsTable) : SettingsTable :=
  if s.any (fun r => r.id == 1) then s else s ++ [⟨1, 1⟩]

/-- Modelled from the spec: the administrative mutation path of §3
("mutated only by an administrative path outside this core's scope"),
`UPDATE quorum_settings SET threshold = ? WHERE id = 1`.  The schema puts
no CHECK constraint on `threshold`, so every integer is accepted. -/
def adminSetThreshold (s : SettingsTable) (t : Int) : SettingsTable :=
  s.map (fun r => if r.id == 1 then { r with threshold := t } else r)

/-- Operations that can touch the settings store. -/
inductive SettingsOp
  | migrate
  | adminSet (t : Int)
deriving DecidableEq

/-- One step of the settings store. -/
def settingsStep (s : SettingsTable) : SettingsOp → SettingsTable
  | .migrate => migrateSettings s
  | .adminSet t => adminSetThreshold s t

/-- States of the `quorum_settings` store reachable from a fresh database:
the migration runs first, then any sequence of repeated (idempotent)
migrations and administrative updates. -/
def runSettings (ops : List SettingsOp) : SettingsTable :=
  ops.foldl settingsStep (migrateSettings [])

/-- The threshold the Quorum Evaluator reads:
`SELECT threshold FROM quorum_settings WHERE id = 1`. -/
def readThreshold (s : SettingsTable) : Option Int :=
  (s.find? (fun r => r.id == 1)).map (·.threshold)

/-! ## Release submitter: contract response classification

From the oracle README's contract-error table and the full-lifecycle
example: code 1 "Project not found", code 3 "Already completed", code 6
"Not authorized", code 14 "Project expired", code 16 "Verification
failed".  Scenario C of the example shows the code-3 answer surfaced as
`ERROR pifp_oracle::chain: Contract error: Project already completed
(milestone already released) (code: 3)` with "Transaction rejected". -/

/-- Contract error kinds, as documented by the oracle README. -/
inductive ContractErrorKind
  | ProjectNotFound
  | AlreadyCompleted
  | NotAuthorized
  | ProjectExpired
  | VerificationFailed
  | Unknown (code : Int)
deriving DecidableEq

/-- Decoding of the contract's numeric error codes, from the README table. -/
def contractErrorOfCode (c : Int) : ContractErrorKind :=
  if c == 1 then .ProjectNotFound
  else if c == 3 then .AlreadyCompleted
  else if c == 6 then .NotAuthorized
  else if c == 14 then .ProjectExpired
  else if c == 16 then .VerificationFailed
  else .Unknown c

/-- The contract's answer to a `verify_and_release` submission. -/
inductive ContractResponse
  | ok (txHash : String)
  | err (code : Int)
deriving DecidableEq

/-- How the oracle reports one submission attempt. -/
inductive SubmitOutcome
  | Success (txHash : String)
  | ContractFailure (kind : ContractErrorKind)
deriving DecidableEq

/-- Classification of the contract's answer by the documented oracle
(`pifp_oracle::chain`): an accepted transaction is reported as success; every
contract error code is logged as `Contract error ... (code: n)` at ERROR
level and the attempt is rejected — the lifecycle example's Scenario C shows
this for code 3 ("Project already completed", "Transaction rejected"). -/
def classifySubmit : ContractResponse → SubmitOutcome
  | .ok tx => .Success tx
  | .err c => .ContractFailure (contractErrorOfCode c)

/-- Whether an outcome is a success. -/
def SubmitOutcome.isSuccess : SubmitOutcome → Bool
  | .Success _ => true
  | .ContractFailure _ => false

/-! ## Documented CLI oracle run (README / lifecycle example)

The single-oracle CLI flow: fetch the artifact from IPFS, compute the
SHA-256 digest and log it (`Computed proof hash: ...`); in dry-run mode warn
`DRY RUN MODE - Transaction will not be submitted` and stop; in live mode
submit `verify_and_release` with the computed digest. -/

/-- Artifact bytes returned by the fetcher. -/
abbrev Bytes := List Nat

/-- Outcome of one documented CLI oracle run. -/
inductive RunOutcome
  | FetchFailed
  | DryRunComplete (digest : String)
  | Live (o : SubmitOutcome)
deriving DecidableEq

/-- Observable result of one CLI oracle run: the outcome, the digest logged
(if the fetch succeeded) and the list of transactions dispatched to the
network, each as `(projectId, digest)`. -/
structure RunResult where
  outcome : RunOutcome
  loggedDigest : Option String
  dispatched : List (Nat × String)
deriving DecidableEq

/-- The documented CLI oracle flow, parametrised by the digest function; the
fetcher's answer is `none` when the gateway fetch fails. -/
def oracleRun (hash : Bytes → String) (projectId : Nat) (fetched : Option Bytes)
    (dryRun : Bool) (chainAnswer : ContractResponse) : RunResult :=
  match fetched with
  | none => ⟨.FetchFailed, none, []⟩
  | some bytes =>
    let d := hash bytes
    if dryRun then ⟨.DryRunComplete d, some d, []⟩
    else ⟨.Live (classifySubmit chainAnswer), some d, [(projectId, d)]⟩

/-- On-chain state visible to this subsystem: the set of project ids whose
status is `Completed`. -/
abbrev ChainState := List Nat

/-- Effect of one dispatched `verify_and_release` transaction on the chain
(the contract marks the project `Completed` when it accepts the release). -/
def applyTx (c : ChainState) (tx : Nat × String) : ChainState :=
  if c.contains tx.1 then c else tx.1 :: c

/-- Chain state after a run: only dispatched transactions can change it. -/
def chainAfter (c : ChainState) (r : RunResult) : ChainState :=
  r.dispatched.foldl applyTx c

/-! ## Orchestrator state machine (§4.6)

Modelled from the spec: the quorum orchestrator (fetch → verify → vote →
evaluate → submit) has no implementation in the source tree; §2 and §4.6 fix
its transitions, including that dry-run performs fetch + verify +
quorum-check without mutating the ledger or submitting. -/

/-- Failure kinds of a verification attempt. -/
inductive FailureKind
  | Network
  | HashMismatch
deriving DecidableEq

/-- Terminal outcome of one orchestrated verification attempt. -/
inductive AttemptOutcome
  | TerminalFailure (k : FailureKind)
  | AwaitingMoreVotes (count threshold : Nat)
  | Submitted (o : SubmitOutcome)
  | SkippedDryRun (digest : String)
deriving DecidableEq

/-- Result of one orchestrated attempt: the ledger afterwards, the outcome,
and the transactions dispatched on-chain. -/
structure AttemptResult where
  ledger : Ledger
  outcome : AttemptOutcome
  dispatched : List (String × String)
deriving DecidableEq

/-- Modelled from the spec: one orchestrated verification attempt (§4.6).
`fetched = none` models a failed artifact fetch (`Terminal(Failure:Network)`,
before any vote); a digest differing from the registered commitment ends in
`Terminal(Failure:HashMismatch)` with no vote recorded; otherwise the vote is
recorded idempotently, quorum is evaluated against the threshold, and the
attempt either awaits more votes, skips submission in dry-run mode, or
submits and classifies the contract's answer. -/
def attempt (hash : Bytes → String) (p a commitment : String) (threshold : Nat)
    (dryRun : Bool) (fetched : Option Bytes) (chainAnswer : ContractResponse)
    (l : Ledger) : AttemptResult :=
  match fetched with
  | none => ⟨l, .TerminalFailure .Network, []⟩
  | some bytes =>
    let d := hash bytes
    if d ≠ commitment then
      ⟨l, .TerminalFailure .HashMismatch, []⟩
    else if dryRun then
      match evaluate l threshold p d with
      | .ReachedQuorum _ _ => ⟨l, .SkippedDryRun d, []⟩
      | .Pending c t => ⟨l, .AwaitingMoreVotes c t, []⟩
    else
      let l' := (recordVote l p a d).1
      match evaluate l' threshold p d with
      | .Pending c t => ⟨l', .AwaitingMoreVotes c t, []⟩
      | .ReachedQuorum _ _ => ⟨l', .Submitted (classifySubmit chainAnswer), [(p, d)]⟩

end Pifp

namespace Keeper

/-! ## JSON values

Model of the JSON data handled by `keeper/src/taskRegistry.js`.  Numbers are
restricted to integers (the registry's task records carry integer and string
fields); keys and strings are lists of characters. -/

/-- A JSON value. -/
inductive Json where
  | null
  | bool (b : Bool)
  | num (n : Int)
  | str (s : List Char)
  | arr (xs : List Json)
  | obj (fs : List (List Char × Json))

/-- The opening brace character, written by its code point. -/
def lbraceChar : Char := Char.ofNat 123

/-- The closing brace character, written by its code point. -/
def rbraceChar : Char := Char.ofNat 125

/-- Lower-case hexadecimal digit for a value below 16. -/
def hexDigitChar (n : Nat) : Char :=
  if n < 10 then Char.ofNat (48 + n) else Char.ofNat (87 + n)

/-- JSON string escaping as performed by `JSON.stringify`: quote, backslash
and control characters are escaped, everything else passes through. -/
def escapeChar (c : Char) : List Char :=
  if c = '"' then ['\\', '"']
  else if c = '\\' then ['\\', '\\']
  else if c = '\x08' then ['\\', 'b']
  else if c = '\t' then ['\\', 't']
  else if c = '\n' then ['\\', 'n']
  else if c = '\x0c' then ['\\', 'f']
  else if c = '\r' then ['\\', 'r']
  else if c.toNat < 32 then
    ['\\', 'u', '0', '0', hexDigitChar (c.toNat / 16), hexDigitChar (c.toNat % 16)]
  else [c]

/-- Escaped body of a JSON string literal. -/
def escapeString (s : List Char) : List Char := s.flatMap escapeChar

/-- Decimal digit character for a value below 10. -/
def digitChar (d : Nat) : Char := Char.ofNat (48 + d)

/-- Digits of a positive number, most significant first; the first argument
is fuel bounding the number of divisions. -/
def renderNatAux : Nat → Nat → List Char
  | 0, _ => []
  | _ + 1, 0 => []
  | fuel + 1, n => renderNatAux fuel (n / 10) ++ [digitChar (n % 10)]

/-- Decimal rendering of a natural number, as JavaScript `String(n)`. -/
def renderNat (n : Nat) : List Char :=
  if n = 0 then ['0'] else renderNatAux n n

/-- Decimal rendering of an integer, as JavaScript `String(n)`. -/
def renderInt (n : Int) : List Char :=
  if n < 0 then '-' :: renderNat n.natAbs else renderNat n.natAbs

/-- Indentation: `d` space characters. -/
def indentChars (d : Nat) : List Char := List.replicate d ' '

mutual

/-- `JSON.stringify(v, null, 2)` at nesting indentation `d`: two-space
indented arrays and objects, `"key": value` members, and compact `[]` and
empty-object forms. -/
def render : Json → Nat → List Char
  | .null, _ => ['n', 'u', 'l', 'l']
  | .bool true, _ => ['t', 'r', 'u', 'e']
  | .bool false, _ => ['f', 'a', 'l', 's', 'e']
  | .num n, _ => renderInt n
  | .str s, _ => '"' :: (escapeString s ++ ['"'])
  | .arr [], _ => ['[', ']']
  | .arr (x :: xs), d =>
      '[' :: '\n' :: (renderItems x xs (d + 2) ++ '\n' :: (indentChars d ++ [']']))
  | .obj [], _ => [lbraceChar, rbraceChar]
  | .obj (f :: fs), d =>
      lbraceChar :: '\n' ::
        (renderFields f fs (d + 2) ++ '\n' :: (indentChars d ++ [rbraceChar]))
termination_by v _ => sizeOf v
decreasing_by all_goals (simp_wf; try omega)

/-- Indented, comma-and-newline separated array items. -/
def renderItems : Json → List Json → Nat → List Char
  | x, [], d => indentChars d ++ render x d
  | x, y :: ys, d =>
      indentChars d ++ (render x d ++ ',' :: '\n' :: renderItems y ys d)
termination_by x xs _ => 1 + sizeOf x + sizeOf xs
decreasing_by all_goals (simp_wf; try omega)

/-- Indented, comma-and-newline separated object members. -/
def renderFields : (List Char × Json) → List (List Char × Json) → Nat → List Char
  | (k, v), [], d =>
      indentChars d ++ ('"' :: (escapeString k ++ '"' :: ':' :: ' ' :: render v d))
  | (k, v), f :: fs, d =>
      indentChars d ++
        ('"' :: (escapeString k ++ '"' :: ':' :: ' ' :: render v d)) ++
        ',' :: '\n' :: renderFields f fs d
termination_by f fs _ => 1 + sizeOf f + sizeOf fs
decreasing_by all_goals (simp_wf; try omega)

end

/-- Top-level `JSON.stringify(v, null, 2)`. -/
def jsonStringify (v : Json) : List Char := render v 0

/-- JSON insignificant whitespace. -/
def isWsChar (c : Char) : Bool := c = ' ' || c = '\n' || c = '\t' || c = '\r'

/-- Drop leading insignificant whitespace. -/
def skipWs : List Char → List Char
  | [] => []
  | c :: r => if isWsChar c then skipWs r else c :: r

/-- Value of a hexadecimal digit character. -/
def hexVal? (c : Char) : Option Nat :=
  if '0' ≤ c ∧ c ≤ '9' then some (c.toNat - 48)
  else if 'a' ≤ c ∧ c ≤ 'f' then some (c.toNat - 87)
  else if 'A' ≤ c ∧ c ≤ 'F' then some (c.toNat - 55)
  else none

/-- Parse the body of a JSON string literal (after the opening quote) up to
and including the closing quote, undoing the escapes `JSON.parse` accepts. -/
def parseStringBody : List Char → Option (List Char × List Char)
  | [] => none
  | c :: r =>
    if c = '"' then some ([], r)
    else if c = '\\' then
      match r with
      | [] => none
      | e :: r' =>
        if e = '"' then (fun p => (('"' : Char) :: p.1, p.2)) <$> parseStringBody r'
        else if e = '\\' then (fun p => (('\\' : Char) :: p.1, p.2)) <$> parseStringBody r'
        else if e = '/' then (fun p => (('/' : Char) :: p.1, p.2)) <$> parseStringBody r'
        else if e = 'b' then (fun p => (('\x08' : Char) :: p.1, p.2)) <$> parseStringBody r'
        else if e = 't' then (fun p => (('\t' : Char) :: p.1, p.2)) <$> parseStringBody r'
        else if e = 'n' then (fun p => (('\n' : Char) :: p.1, p.2)) <$> parseStringBody r'
        else if e = 'f' then (fun p => (('\x0c' : Char) :: p.1, p.2)) <$> parseStringBody r'
        else if e = 'r' then (fun p => (('\r' : Char) :: p.1, p.2)) <$> parseStringBody r'
        else if e = 'u' then
          match r' with
          | h1 :: h2 :: h3 :: h4 :: r2 =>
            match hexVal? h1, hexVal? h2, hexVal? h3, hexVal? h4 with
            | some a, some b, some c2, some d =>
              (fun p => (Char.ofNat (((a * 16 + b) * 16 + c2) * 16 + d) :: p.1, p.2)) <$>
                parseStringBody r2
            | _, _, _, _ => none
          | _ => none
        else none
    else if c.toNat < 32 then none
    else (fun p => (c :: p.1, p.2)) <$> parseStringBody r

/-- Value of a decimal digit character. -/
def digitVal (c : Char) : Nat := c.toNat - 48

/-- Parse a non-empty run of decimal digits into a natural number. -/
def parseNatTok (s : List Char) : Option (Nat × List Char) :=
  let ds := s.takeWhile Char.isDigit
  if ds.isEmpty then none
  else some (ds.foldl (fun a c => 10 * a + digitVal c) 0, s.dropWhile Char.isDigit)

/-- Parse an optionally negated integer numeral. -/
def parseIntTok (s : List Char) : Option (Int × List Char) :=
  match s with
  | [] => none
  | c :: r =>
    if c = '-' then (fun p => (-(p.1 : Int), p.2)) <$> parseNatTok r
    else (fun p => ((p.1 : Int), p.2)) <$> parseNatTok s

mutual

/-- `JSON.parse` value parser, restricted to integer numerals; the fuel
argument bounds the recursion depth, each recursive call consuming one
unit.  Returns the parsed value and the unconsumed suffix. -/
def parseVal : Nat → List Char → Option (Json × List Char)
  | 0, _ => none
  | fuel + 1, s =>
    match skipWs s with
    | [] => none
    | c :: r =>
      if c = 'n' then
        match r with
        | 'u' :: 'l' :: 'l' :: r1 => some (.null, r1)
        | _ => none
      else if c = 't' then
        match r with
        | 'r' :: 'u' :: 'e' :: r1 => some (.bool true, r1)
        | _ => none
      else if c = 'f' then
        match r with
        | 'a' :: 'l' :: 's' :: 'e' :: r1 => some (.bool false, r1)
        | _ => none
      else if c = '"' then
        (fun p => (Json.str p.1, p.2)) <$> parseStringBody r
      else if c = '[' then
        match skipWs r with
        | [] => none
        | c1 :: r1 =>
          if c1 = ']' then some (.arr [], r1)
          else (fun p => (Json.arr p.1, p.2)) <$> parseItems fuel (c1 :: r1)
      else if c = lbraceChar then
        match skipWs r with
        | [] => none
        | c1 :: r1 =>
          if c1 = rbraceChar then some (.obj [], r1)
          else (fun p => (Json.obj p.1, p.2)) <$> parseFields fuel (c1 :: r1)
      else if c = '-' || c.isDigit then
        (fun p => (Json.num p.1, p.2)) <$> parseIntTok (c :: r)
      else none

/-- Parse one or more comma-separated array items up to and including the
closing bracket. -/
def parseItems : Nat → List Char → Option (List Json × List Char)
  | 0, _ => none
  | fuel + 1, s =>
    match parseVal fuel s with
    | none => none
    | some (v, r) =>
      match skipWs r with
      | [] => none
      | c :: r1 =>
        if c = ',' then
          match parseItems fuel r1 with
          | some (vs, r2) => some (v :: vs, r2)
          | none => none
        else if c = ']' then some ([v], r1)
        else none

/-- Parse one or more comma-separated object members up to and including the
closing brace. -/
def parseFields : Nat → List Char → Option (List (List Char × Json) × List Char)
  | 0, _ => none
  | fuel + 1, s =>
    match skipWs s with
    | [] => none
    | c :: r =>
      if c = '"' then
        match parseStringBody r with
        | none => none
        | some (k, r1) =>
          match skipWs r1 with
          | [] => none
          | c1 :: r2 =>
            if c1 = ':' then
              match parseVal fuel r2 with
              | none => none
              | some (v, r3) =>
                match skipWs r3 with
                | [] => none
                | c2 :: r4 =>
                  if c2 = ',' then
                    match parseFields fuel r4 with
                    | some (fs, r5) => some ((k, v) :: fs, r5)
                    | none => none
                  else if c2 = rbraceChar then some ([(k, v)], r4)
                  else none
            else none
      else none

end

/-- Top-level `JSON.parse`: one value, then nothing but whitespace.  The
fuel `s.length + 1` suffices for any input, since every nesting level of
the value consumes at least one input character. -/
def parseJson (s : List Char) : Option Json :=
  match parseVal (s.length + 1) s with
  | some (v, r) => if skipWs r = [] then some v else none
  | none => none

/-! ## Task registry (`keeper/src/taskRegistry.js`) -/

/-- State of the `data/tasks.json` file as the registry can encounter it:
missing (`fs.existsSync` false), present but unreadable (`fs.readFileSync`
throws), or present with contents. -/
inductive FileState
  | absent
  | unreadable
  | content (s : List Char)
deriving DecidableEq

/-- `loadTaskRegistry()`: if the tasks file exists, read and `JSON.parse`
it; on a missing file, a read error (caught, warned) or a parse error
(caught, warned) return the empty array. -/
def loadTaskRegistry (fs : FileState) : Json :=
  match fs with
  | .absent => .arr []
  | .unreadable => .arr []
  | .content s =>
    match parseJson s with
    | some v => v
    | none => .arr []

/-- `saveTaskRegistry(tasks)`: write `JSON.stringify(tasks, null, 2)` and
report `true`; if the write throws (`writeOk = false`), the file keeps its
previous state and the function reports `false`. -/
def saveTaskRegistry (fs : FileState) (tasks : List Json) (writeOk : Bool) :
    FileState × Bool :=
  if writeOk then (.content (jsonStringify (.arr tasks)), true)
  else (fs, false)

/-! ## Parsing-support definitions -/

/-- Whitespace-only character stretches, as the pretty-printer inserts. -/
def AllWs (ws : List Char) : Prop := ∀ c ∈ ws, isWsChar c = true

/-- Suffixes that cannot extend a numeral token: empty, or starting with a
non-digit character. -/
def NumGuard : List Char → Prop
  | [] => True
  | c :: _ => c.isDigit = false

/-- Rendered text following the first item of a non-empty array: a comma,
a line break and the next indented item, for each remaining item. -/
def itemsTail : List Json → Nat → List Char
  | [], _ => []
  | y :: ys, d => ',' :: '\n' :: (indentChars d ++ render y d ++ itemsTail ys d)

/-- Rendered text following the first member of a non-empty object. -/
def fieldsTail : List (List Char × Json) → Nat → List Char
  | [], _ => []
  | (k, v) :: fs, d =>
      ',' :: '\n' ::
        (indentChars d ++
          ('"' :: (escapeString k ++ '"' :: ':' :: ' ' :: render v d)) ++
          fieldsTail fs d)

mutual

/-- A recursion budget sufficient for `parseVal` to parse the rendering of a
value: one unit per nesting level of the parser's mutual recursion. -/
def pfuel : Json → Nat
  | .null => 1
  | .bool _ => 1
  | .num _ => 1
  | .str _ => 1
  | .arr [] => 1
  | .arr (x :: xs) => pfuelItems (x :: xs) + 1
  | .obj [] => 1
  | .obj (f :: fs) => pfuelFields (f :: fs) + 1
termination_by v => sizeOf v
decreasing_by all_goals (simp_wf; try omega)

/-- Budget for `parseItems` on a non-empty item list. -/
def pfuelItems : List Json → Nat
  | [] => 1
  | x :: xs => max (pfuel x) (pfuelItems xs) + 1
termination_by xs => sizeOf xs
decreasing_by all_goals (simp_wf; try omega)

/-- Budget for `parseFields` on a non-empty member list. -/
def pfuelFields : List (List Char × Json) → Nat
  | [] => 1
  | (k, v) :: fs => max (pfuel v) (pfuelFields fs) + 1
termination_by fs => sizeOf fs
decreasing_by all_goals (simp_wf; try omega)

end

end Keeper

namespace Pifp

/-! ## Ledger lemmas -/

/-- Appending one row changes a pair count by at most one. -/
theorem countPair_append_single (l : Ledger) (v : OracleVote) (p a : String) :
    countPair (l ++ [v]) p a =
      countPair l p a + (if pairMatch p a v then 1 else 0) := by
  simp only [countPair, List.filter_append]
  cases h : pairMatch p a v <;> simp [List.filter, h]

/-- A pair with no matching row has count zero. -/
theorem countPair_zero_of_not_any (l : Ledger) (p a : String)
    (h : l.any (pairMatch p a) = false) : countPair l p a = 0 := by
  simp only [countPair, List.length_eq_zero]
  rw [List.filter_eq_nil_iff]
  intro v hv
  exact (List.any_eq_false.mp h) v hv

/-- One `recordVote` call preserves the unique-pair bound for its pair. -/
theorem countPair_recordVote_le (l : Ledger) (p a d : String)
    (hl : countPair l p a ≤ 1) : countPair ((recordVote l p a d).1) p a ≤ 1 := by
  by_cases h : l.any (pairMatch p a)
  · simpa [recordVote, h] using hl
  · have h0 := countPair_zero_of_not_any l p a (by simpa using h)
    simp [recordVote, h, countPair_append_single, h0, pairMatch]

/-- Every sequence of `recordVote` calls preserves the unique-pair bound. -/
theorem countPair_applyVotes_le (p a : String) (ds : List String) :
    ∀ l : Ledger, countPair l p a ≤ 1 → countPair (applyVotes l p a ds) p a ≤ 1 := by
  induction ds with
  | nil => intro l hl; simpa [applyVotes] using hl
  | cons d ds ih =>
    intro l hl
    have h1 := countPair_recordVote_le l p a d hl
    simpa [applyVotes] using ih ((recordVote l p a d).1) h1

/-- C2: for every pair and every sequence of `recordVote` calls for that
pair, the ledger holds at most one row for the pair after every call, and
each call either inserts exactly one row or reports `AlreadyRecorded`
leaving the ledger unchanged — it never errors and never duplicates. -/
theorem recordVote_at_most_one_row (l : Ledger) (p a : String) (ds : List String)
    (hl : countPair l p a ≤ 1) :
    (∀ n, countPair (applyVotes l p a (ds.take n)) p a ≤ 1) ∧
    (∀ d, ((recordVote l p a d).2 = .Inserted ∧
            countPair ((recordVote l p a d).1) p a = countPair l p a + 1) ∨
          ((recordVote l p a d).2 = .AlreadyRecorded ∧ (recordVote l p a d).1 = l)) := by
  constructor
  · intro n; exact countPair_applyVotes_le p a (ds.take n) l hl
  · intro d
    by_cases h : l.any (pairMatch p a)
    · right; simp [recordVote, h]
    · left
      have h0 := countPair_zero_of_not_any l p a (by simpa using h)
      simp [recordVote, h, countPair_append_single, h0, pairMatch]

/-- Witness for C2 at a concrete call sequence. -/
theorem recordVote_at_most_one_row_witness :
    countPair [] "7" "A" ≤ 1 ∧
    countPair (applyVotes [] "7" "A" (["H", "H", "H2"].take 3)) "7" "A" ≤ 1 :=
  ⟨by decide, (recordVote_at_most_one_row [] "7" "A" ["H", "H", "H2"] (by decide)).1 3⟩

/-- C3: if a pair already has a recorded vote with digest `d1`, a later
`recordVote` with a different digest `d2` reports `AlreadyRecorded`, leaves
the whole ledger unchanged and keeps the stored digest `d1`. -/
theorem recordVote_first_vote_wins (l : Ledger) (p a d1 d2 : String)
    (h1 : lookupVote l p a = some d1) (hne : d2 ≠ d1) :
    (recordVote l p a d2).2 = .AlreadyRecorded ∧
    (recordVote l p a d2).1 = l ∧
    lookupVote ((recordVote l p a d2).1) p a = some d1 := by
  have hany : l.any (pairMatch p a) = true := by
    rcases Option.map_eq_some'.mp h1 with ⟨v, hv, _⟩
    exact List.any_eq_true.mpr ⟨v, List.mem_of_find?_eq_some hv, List.find?_some hv⟩
  exact ⟨by simp [recordVote, hany], by simp [recordVote, hany],
    by simp [recordVote, hany, h1]⟩

/-- Witness for C3 at a concrete ledger. -/
theorem recordVote_first_vote_wins_witness :
    (recordVote [⟨"7", "A", "H"⟩] "7" "A" "H2").2 = .AlreadyRecorded ∧
    (recordVote [⟨"7", "A", "H"⟩] "7" "A" "H2").1 = [⟨"7", "A", "H"⟩] ∧
    lookupVote ((recordVote [⟨"7", "A", "H"⟩] "7" "A" "H2").1) "7" "A" = some "H" :=
  recordVote_first_vote_wins [⟨"7", "A", "H"⟩] "7" "A" "H" "H2" (by decide) (by decide)

/-- Dropping the head row cannot increase a pair count. -/
theorem countPair_cons_le (v : OracleVote) (t : Ledger) (p a : String) :
    countPair t p a ≤ countPair (v :: t) p a := by
  simp only [countPair, List.filter_cons]
  split <;> simp

/-- The unique-pair invariant restricts to the tail. -/
theorem pairUnique_cons (v : OracleVote) (t : Ledger) (hu : PairUnique (v :: t)) :
    PairUnique t :=
  fun p a => le_trans (countPair_cons_le v t p a) (hu p a)

/-- A matching member forces a positive pair count. -/
theorem one_le_countPair_of_mem {l : Ledger} {w : OracleVote} {p a : String}
    (hw : w ∈ l) (hm : pairMatch p a w = true) : 1 ≤ countPair l p a := by
  have hmem : w ∈ l.filter (pairMatch p a) := List.mem_filter.mpr ⟨hw, hm⟩
  have hpos := List.length_pos.mpr (List.ne_nil_of_mem hmem)
  simpa [countPair] using hpos

/-- Under the unique-pair constraint, the addresses of the rows matching one
(project, digest) query are pairwise distinct. -/
theorem filter_addresses_nodup (l : Ledger) (p h : String) (hu : PairUnique l) :
    ((l.filter (hashMatch p h)).map OracleVote.oracle_address).Nodup := by
  induction l with
  | nil => simp
  | cons v t ih =>
    have hut : PairUnique t := pairUnique_cons v t hu
    by_cases hv : hashMatch p h v = true
    · simp only [List.filter_cons, hv, if_true, List.map_cons, List.nodup_cons]
      refine ⟨?_, ih hut⟩
      intro hmem
      rcases List.mem_map.mp hmem with ⟨w, hwf, hwa⟩
      rcases List.mem_filter.mp hwf with ⟨hwt, hwm⟩
      have hvp : v.project_id = p := by
        have := hv
        simp [hashMatch] at this
        exact this.1
      have hwp : w.project_id = p := by
        simp [hashMatch] at hwm
        exact hwm.1
      have h1 : pairMatch p v.oracle_address v = true := by
        simp [pairMatch, hvp]
      have h2 : pairMatch p v.oracle_address w = true := by
        simp [pairMatch, hwp, hwa]
      have hge : 1 ≤ countPair t p v.oracle_address := one_le_countPair_of_mem hwt h2
      have hcons : countPair (v :: t) p v.oracle_address =
          countPair t p v.oracle_address + 1 := by
        simp [countPair, List.filter_cons, h1]
      have := hu p v.oracle_address
      omega
    · simp only [List.filter_cons, hv, if_false]
      exact ih hut

/-- Two rows with different oracle addresses satisfy the unique-pair
constraint. -/
theorem pairUnique_two (v w : OracleVote) (hne : v.oracle_address ≠ w.oracle_address) :
    PairUnique [v, w] := by
  intro p a
  have hnot : ¬(pairMatch p a v = true ∧ pairMatch p a w = true) := by
    rintro ⟨h1, h2⟩
    simp [pairMatch] at h1 h2
    exact hne (h1.2.trans h2.2.symm)
  by_cases h1 : pairMatch p a v <;> by_cases h2 : pairMatch p a w <;>
    simp [countPair, List.filter, h1, h2] at hnot ⊢

/-- C4: under the table's unique-pair constraint, `tally(projectId, digest)`
equals the number of distinct oracle addresses whose recorded vote for that
project carries exactly that digest, and votes with any other digest are
excluded from the tallied rows. -/
theorem tally_counts_distinct_addresses (l : Ledger) (p h : String)
    (hu : PairUnique l) :
    tally l p h =
      ((l.filter (hashMatch p h)).map OracleVote.oracle_address).toFinset.card ∧
    ∀ v ∈ l, v.proof_hash ≠ h → v ∉ l.filter (hashMatch p h) := by
  constructor
  · have hnd := filter_addresses_nodup l p h hu
    rw [List.toFinset_card_of_nodup hnd]
    simp [tally]
  · intro v _ hne hmem
    rcases List.mem_filter.mp hmem with ⟨_, hm⟩
    simp [hashMatch] at hm
    exact hne hm.2

/-- Witness for C4: oracle A votes digest H, oracle B votes digest K ≠ H for
the same project; each digest tallies exactly one distinct address. -/
theorem tally_counts_distinct_addresses_witness :
    tally [⟨"7", "A", "H"⟩, ⟨"7", "B", "K"⟩] "7" "H" =
      (([⟨"7", "A", "H"⟩, ⟨"7", "B", "K"⟩].filter (hashMatch "7" "H")).map
        OracleVote.oracle_address).toFinset.card ∧
    tally [⟨"7", "A", "H"⟩, ⟨"7", "B", "K"⟩] "7" "H" = 1 ∧
    tally [⟨"7", "A", "H"⟩, ⟨"7", "B", "K"⟩] "7" "K" = 1 := by
  have hu : PairUnique [⟨"7", "A", "H"⟩, ⟨"7", "B", "K"⟩] :=
    pairUnique_two ⟨"7", "A", "H"⟩ ⟨"7", "B", "K"⟩ (by decide)
  exact ⟨(tally_counts_distinct_addresses _ "7" "H" hu).1, by decide, by decide⟩

/-- C5: the evaluation reaches quorum exactly when the tally meets the
threshold, reports `Pending` exactly otherwise, and always reports the
current tally together with the threshold it was handed — so a threshold
change is reflected on the very next evaluation without replaying votes. -/
theorem evaluate_reached_iff (l : Ledger) (t : Nat) (p h : String) :
    (evaluate l t p h = .ReachedQuorum (tally l p h) t ↔ t ≤ tally l p h) ∧
    (evaluate l t p h = .Pending (tally l p h) t ↔ tally l p h < t) ∧
    (∀ c th, (evaluate l t p h = .ReachedQuorum c th ∨
              evaluate l t p h = .Pending c th) →
      c = tally l p h ∧ th = t) := by
  refine ⟨?_, ?_, ?_⟩
  · by_cases hle : t ≤ tally l p h <;> simp [evaluate, hle]
  · by_cases hle : t ≤ tally l p h <;> simp [evaluate, hle] <;> omega
  · intro c th hor
    by_cases hle : t ≤ tally l p h <;>
      rcases hor with heq | heq <;> simp [evaluate, hle] at heq <;>
      exact ⟨heq.1.symm, heq.2.symm⟩

/-- Witness for C5: threshold 2 on project 7; two votes for digest H reach
quorum and the evaluation reports count 2 with threshold 2. -/
theorem evaluate_reached_iff_witness :
    (2 : Nat) = tally [⟨"7", "A", "H"⟩, ⟨"7", "B", "H"⟩] "7" "H" ∧ (2 : Nat) = 2 :=
  (evaluate_reached_iff [⟨"7", "A", "H"⟩, ⟨"7", "B", "H"⟩] 2 "7" "H").2.2 2 2
    (Or.inl (by decide))

/-! ## Settings store lemmas -/

/-- Invariant of the settings store under any operation sequence: the table
stays the single id-1 row, and the threshold stays ≥ 1 whenever it starts
≥ 1 and every administrative write is ≥ 1. -/
theorem foldl_settings_invariant (ops : List SettingsOp) :
    ∀ t0 : Int, ∃ t : Int, ops.foldl settingsStep [⟨1, t0⟩] = [⟨1, t⟩] ∧
      (1 ≤ t0 → (∀ u, SettingsOp.adminSet u ∈ ops → 1 ≤ u) → 1 ≤ t) := by
  induction ops with
  | nil => exact fun t0 => ⟨t0, by simp, fun h _ => h⟩
  | cons op rest ih =>
    intro t0
    cases op with
    | migrate =>
      rcases ih t0 with ⟨t, ht, hge⟩
      refine ⟨t, ?_, ?_⟩
      · simpa [settingsStep, migrateSettings] using ht
      · intro h1 hall
        exact hge h1 (fun u hu => hall u (List.mem_cons_of_mem _ hu))
    | adminSet u =>
      rcases ih u with ⟨t, ht, hge⟩
      refine ⟨t, ?_, ?_⟩
      · simpa [settingsStep, adminSetThreshold] using ht
      · intro _ hall
        exact hge (hall u (List.mem_cons_self _ _))
          (fun w hw => hall w (List.mem_cons_of_mem _ hw))

/-- C8 counterexample: the schema does not enforce the lower bound on the
threshold — the state after an administrative update to 0 is reachable, and
the evaluator would read a threshold of 0 < 1 there. -/
theorem quorum_settings_zero_threshold_reachable :
    runSettings [SettingsOp.adminSet 0] = [⟨1, 0⟩] ∧
    readThreshold (runSettings [SettingsOp.adminSet 0]) = some 0 ∧
    ¬((1 : Int) ≤ 0) := by decide

/-- C8 amended: every reachable state of the quorum settings store has
exactly one record, with id 1; the freshly migrated store holds the default
threshold 1; and the threshold read stays ≥ 1 provided every administrative
update writes a value ≥ 1 (the schema itself does not enforce that bound). -/
theorem quorum_settings_single_row (ops : List SettingsOp)
    (hops : ∀ u, SettingsOp.adminSet u ∈ ops → 1 ≤ u) :
    runSettings [] = [⟨1, 1⟩] ∧
    ∃ t : Int, runSettings ops = [⟨1, t⟩] ∧
      readThreshold (runSettings ops) = some t ∧ 1 ≤ t := by
  have hinit : migrateSettings [] = [⟨1, 1⟩] := by simp [migrateSettings]
  refine ⟨by simp [runSettings, hinit], ?_⟩
  rcases foldl_settings_invariant ops 1 with ⟨t, ht, hge⟩
  refine ⟨t, ?_, ?_, hge le_rfl hops⟩
  · simpa [runSettings, hinit] using ht
  · have hrun : runSettings ops = [⟨1, t⟩] := by simpa [runSettings, hinit] using ht
    simp [hrun, readThreshold]

/-- Witness for C8 (amended) at a concrete operation sequence. -/
theorem quorum_settings_single_row_witness :
    runSettings [] = [⟨1, 1⟩] ∧
    ∃ t : Int, runSettings [SettingsOp.adminSet 3, SettingsOp.migrate] = [⟨1, t⟩] ∧
      readThreshold (runSettings [SettingsOp.adminSet 3, SettingsOp.migrate]) = some t ∧
      1 ≤ t :=
  quorum_settings_single_row [SettingsOp.adminSet 3, SettingsOp.migrate]
    (by intro u hu; simp at hu; omega)

/-! ## Release submitter lemmas -/

/-- C1 counterexample: the documented oracle reports the code-3 "already
completed" contract answer as a contract error ("Transaction rejected"),
not as a success. -/
theorem alreadyCompleted_reported_as_error :
    classifySubmit (ContractResponse.err 3) =
      .ContractFailure .AlreadyCompleted ∧
    (classifySubmit (ContractResponse.err 3)).isSuccess = false := by decide

/-- C1 amended: every submission attempt answered with contract error code 3
is classified `ContractFailure AlreadyCompleted` — an error reported to the
operator, not a success — and only an accepted transaction is ever
classified a success. -/
theorem classifySubmit_code3 :
    classifySubmit (ContractResponse.err 3) = .ContractFailure .AlreadyCompleted ∧
    (∀ r : ContractResponse, (classifySubmit r).isSuccess = true ↔
      ∃ tx, r = .ok tx) := by
  refine ⟨by decide, ?_⟩
  intro r
  cases r with
  | ok tx => simp [classifySubmit, SubmitOutcome.isSuccess]
  | err c => simp [classifySubmit, SubmitOutcome.isSuccess]

end Pifp

namespace Pifp

/-- A zero pair count means the existence test fails. -/
theorem any_eq_false_of_countPair_zero {l : Ledger} {p a : String}
    (h : countPair l p a = 0) : l.any (pairMatch p a) = false := by
  rw [List.any_eq_false]
  intro v hv hm
  have := one_le_countPair_of_mem hv hm
  omega

/-- C6: a failed fetch ends the attempt in `Failure:Network` and a digest
mismatch ends it in `Failure:HashMismatch` — distinguishable failures — and
in both cases the ledger afterwards equals the ledger before (no vote, no
partial state); a subsequent retry from that ledger whose artifact digest
matches the commitment writes exactly one row for the pair. -/
theorem attempt_failure_no_vote (hash : Bytes → String) (p a commitment : String)
    (threshold : Nat) (ans : ContractResponse) (l : Ledger)
    (goodBytes badBytes : Bytes)
    (hgood : hash goodBytes = commitment) (hbad : hash badBytes ≠ commitment)
    (hnone : countPair l p a = 0) :
    (attempt hash p a commitment threshold false none ans l).ledger = l ∧
    (attempt hash p a commitment threshold false none ans l).outcome =
      .TerminalFailure .Network ∧
    (attempt hash p a commitment threshold false (some badBytes) ans l).ledger = l ∧
    (attempt hash p a commitment threshold false (some badBytes) ans l).outcome =
      .TerminalFailure .HashMismatch ∧
    AttemptOutcome.TerminalFailure .HashMismatch ≠
      AttemptOutcome.TerminalFailure .Network ∧
    countPair
      (attempt hash p a commitment threshold false (some goodBytes) ans l).ledger
      p a = 1 := by
  have hanyf : l.any (pairMatch p a) = false := any_eq_false_of_countPair_zero hnone
  refine ⟨rfl, rfl, ?_, ?_, by simp, ?_⟩
  · simp [attempt, hbad]
  · simp [attempt, hbad]
  · subst hgood
    have hledger :
        (attempt hash p a (hash goodBytes) threshold false (some goodBytes) ans
            l).ledger =
          (recordVote l p a (hash goodBytes)).1 := by
      cases hev : evaluate (recordVote l p a (hash goodBytes)).1 threshold p
          (hash goodBytes) <;>
        simp [attempt, hev]
    rw [hledger]
    simp [recordVote, hanyf, countPair_append_single, hnone, pairMatch]

/-- Witness for C6 at concrete inputs: a digest function distinguishing the
good artifact from the bad one, an empty ledger, threshold 1. -/
theorem attempt_failure_no_vote_witness :
    (attempt (fun b => if b = [1] then "H" else "K") "7" "A" "H" 1 false none
      (.err 3) []).ledger = ([] : Ledger) ∧
    (attempt (fun b => if b = [1] then "H" else "K") "7" "A" "H" 1 false none
      (.err 3) []).outcome = .TerminalFailure .Network ∧
    (attempt (fun b => if b = [1] then "H" else "K") "7" "A" "H" 1 false (some [2])
      (.err 3) []).ledger = ([] : Ledger) ∧
    (attempt (fun b => if b = [1] then "H" else "K") "7" "A" "H" 1 false (some [2])
      (.err 3) []).outcome = .TerminalFailure .HashMismatch ∧
    AttemptOutcome.TerminalFailure .HashMismatch ≠
      AttemptOutcome.TerminalFailure .Network ∧
    countPair
      (attempt (fun b => if b = [1] then "H" else "K") "7" "A" "H" 1 false
        (some [1]) (.err 3) []).ledger "7" "A" = 1 :=
  attempt_failure_no_vote (fun b => if b = [1] then "H" else "K") "7" "A" "H" 1
    (.err 3) [] [1] [2] (by decide) (by decide) (by decide)

/-- C7: with the dry-run flag set the oracle dispatches no transaction and
the on-chain state is unchanged, while the digest of the fetched artifact is
still computed and logged and the run reports dry-run completion with that
digest; the orchestrated dry-run attempt likewise leaves the vote ledger
untouched and dispatches nothing. -/
theorem oracleRun_dry_run_no_dispatch (hash : Bytes → String) (projectId : Nat)
    (bytes : Bytes) (ans : ContractResponse) (chain : ChainState) :
    (oracleRun hash projectId (some bytes) true ans).dispatched = [] ∧
    (oracleRun hash projectId (some bytes) true ans).outcome =
      .DryRunComplete (hash bytes) ∧
    (oracleRun hash projectId (some bytes) true ans).loggedDigest =
      some (hash bytes) ∧
    chainAfter chain (oracleRun hash projectId (some bytes) true ans) = chain ∧
    (∀ (p a commitment : String) (threshold : Nat) (fetched : Option Bytes)
        (l : Ledger),
      (attempt hash p a commitment threshold true fetched ans l).ledger = l ∧
      (attempt hash p a commitment threshold true fetched ans l).dispatched = []) := by
  refine ⟨rfl, rfl, rfl, rfl, ?_⟩
  intro p a commitment threshold fetched l
  cases fetched with
  | none => exact ⟨rfl, rfl⟩
  | some bs =>
    by_cases hm : hash bs ≠ commitment
    · constructor <;> simp [attempt, hm]
    · cases hev : evaluate l threshold p (hash bs) <;>
        constructor <;> simp [attempt, hm, hev]

end Pifp

namespace Keeper

/-! ## Whitespace and character-class lemmas -/

/-- Whitespace characters are not digits. -/
theorem ws_not_digit {c : Char} (h : isWsChar c = true) : c.isDigit = false := by
  simp [isWsChar] at h
  rcases h with ((h | h) | h) | h <;> subst h <;> decide

/-- Digits are not whitespace. -/
theorem digit_not_ws {c : Char} (h : c.isDigit = true) : isWsChar c = false := by
  cases hw : isWsChar c
  · rfl
  · rw [ws_not_digit hw] at h; cases h

/-- `skipWs` drops a leading whitespace character. -/
theorem skipWs_cons_of_ws {c : Char} (t : List Char) (h : isWsChar c = true) :
    skipWs (c :: t) = skipWs t := by
  simp [skipWs, h]

/-- `skipWs` keeps a leading non-whitespace character. -/
theorem skipWs_cons_of_not_ws {c : Char} (t : List Char) (h : isWsChar c = false) :
    skipWs (c :: t) = c :: t := by
  simp [skipWs, h]

/-- `skipWs` crosses a whitespace-only prefix. -/
theorem skipWs_append_ws {ws : List Char} (t : List Char) (h : AllWs ws) :
    skipWs (ws ++ t) = skipWs t := by
  induction ws with
  | nil => rfl
  | cons c cs ih =>
    rw [List.cons_append, skipWs_cons_of_ws _ (h c (by simp))]
    exact ih (fun d hd => h d (by simp [hd]))

/-- Indentation stretches are whitespace-only. -/
theorem allWs_indentChars (d : Nat) : AllWs (indentChars d) := by
  intro c hc
  rw [List.eq_of_mem_replicate hc]
  decide

/-- A newline followed by indentation is whitespace-only. -/
theorem allWs_newline_indent (d : Nat) : AllWs ('\n' :: indentChars d) := by
  intro c hc
  rcases List.mem_cons.mp hc with h | h
  · subst h; decide
  · exact allWs_indentChars d c h

/-- The empty stretch is whitespace-only. -/
theorem allWs_nil : AllWs ([] : List Char) := by
  intro c hc; cases hc

/-- A non-digit head guards a numeral. -/
theorem numGuard_cons {c : Char} (l : List Char) (h : c.isDigit = false) :
    NumGuard (c :: l) := h

/-- A whitespace-only prefix preserves a numeral guard. -/
theorem numGuard_append_ws {ws : List Char} (l : List Char) (hws : AllWs ws)
    (hl : NumGuard l) : NumGuard (ws ++ l) := by
  cases ws with
  | nil => exact hl
  | cons c cs => exact numGuard_cons _ (ws_not_digit (hws c (by simp)))

/-- Bounds of a digit character's code point. -/
theorem isDigit_toNat_bounds {c : Char} (h : c.isDigit = true) :
    48 ≤ c.toNat ∧ c.toNat ≤ 57 := by
  simp [Char.isDigit] at h
  exact ⟨h.1, h.2⟩

/-- `digitChar` hits the digit code points. -/
theorem digitChar_toNat {d : Nat} (h : d < 10) : (digitChar d).toNat = 48 + d := by
  interval_cases d <;> decide

/-- `digitChar` produces digits. -/
theorem digitChar_isDigit {d : Nat} (h : d < 10) : (digitChar d).isDigit = true := by
  interval_cases d <;> decide

/-- `digitVal` inverts `digitChar`. -/
theorem digitVal_digitChar {d : Nat} (h : d < 10) : digitVal (digitChar d) = d := by
  simp [digitVal, digitChar_toNat h]

/-! ## Decimal numeral round-trip -/

/-- All characters produced by `renderNatAux` are digits. -/
theorem renderNatAux_digits (fuel : Nat) :
    ∀ n c, c ∈ renderNatAux fuel n → c.isDigit = true := by
  induction fuel with
  | zero => intro n c hc; simp [renderNatAux] at hc
  | succ fuel ih =>
    intro n c hc
    match n with
    | 0 => simp [renderNatAux] at hc
    | m + 1 =>
      simp only [renderNatAux, List.mem_append, List.mem_singleton] at hc
      rcases hc with hc | hc
      · exact ih _ c hc
      · subst hc; exact digitChar_isDigit (Nat.mod_lt _ (by norm_num))

/-- `renderNatAux` is non-empty on positive input with enough fuel. -/
theorem renderNatAux_ne_nil {fuel n : Nat} (h1 : 1 ≤ n) (h2 : n ≤ fuel) :
    renderNatAux fuel n ≠ [] := by
  match fuel, n with
  | 0, n => omega
  | fuel + 1, m + 1 => simp [renderNatAux]

/-- All characters of a rendered natural number are digits. -/
theorem renderNat_digits (n : Nat) : ∀ c ∈ renderNat n, c.isDigit = true := by
  intro c hc
  by_cases h0 : n = 0
  · simp [renderNat, h0] at hc; subst hc; decide
  · simp [renderNat, h0] at hc; exact renderNatAux_digits n n c hc

/-- A rendered natural number is never empty. -/
theorem renderNat_ne_nil (n : Nat) : renderNat n ≠ [] := by
  by_cases h0 : n = 0
  · simp [renderNat, h0]
  · simp only [renderNat, h0, if_false]
    exact renderNatAux_ne_nil (by omega) le_rfl

/-- Folding the digit accumulator over `renderNatAux` recovers the input. -/
theorem renderNatAux_foldl (fuel : Nat) :
    ∀ n acc, n ≤ fuel →
      (renderNatAux fuel n).foldl (fun a c => 10 * a + digitVal c) acc =
        acc * 10 ^ (renderNatAux fuel n).length + n := by
  induction fuel with
  | zero =>
    intro n acc h
    interval_cases n
    simp [renderNatAux]
  | succ fuel ih =>
    intro n acc h
    match n with
    | 0 => simp [renderNatAux]
    | m + 1 =>
      have hd : (m + 1) / 10 ≤ fuel := by
        have := Nat.div_lt_self (Nat.succ_pos m) (by norm_num : 1 < 10)
        omega
      simp only [renderNatAux, List.foldl_append, List.length_append,
        List.length_singleton, List.foldl_cons, List.foldl_nil]
      rw [ih _ acc hd]
      rw [digitVal_digitChar (Nat.mod_lt _ (by norm_num))]
      have hmod : 10 * ((m + 1) / 10) + (m + 1) % 10 = m + 1 := Nat.div_add_mod _ _
      rw [pow_succ]
      calc 10 * (acc * 10 ^ (renderNatAux fuel ((m + 1) / 10)).length + (m + 1) / 10) +
            (m + 1) % 10
          = acc * (10 ^ (renderNatAux fuel ((m + 1) / 10)).length * 10) +
            (10 * ((m + 1) / 10) + (m + 1) % 10) := by ring
        _ = acc * (10 ^ (renderNatAux fuel ((m + 1) / 10)).length * 10) + (m + 1) := by
            rw [hmod]

/-- Folding the digit accumulator over a rendered natural recovers it. -/
theorem renderNat_foldl (n : Nat) :
    (renderNat n).foldl (fun a c => 10 * a + digitVal c) 0 = n := by
  by_cases h0 : n = 0
  · subst h0; decide
  · simp only [renderNat, h0, if_false]
    rw [renderNatAux_foldl n n 0 le_rfl]
    simp

/-- A list of satisfying characters passes through `takeWhile`. -/
theorem takeWhile_all_append {p : Char → Bool} {xs : List Char} (ys : List Char)
    (h : ∀ c ∈ xs, p c = true) : (xs ++ ys).takeWhile p = xs ++ ys.takeWhile p := by
  induction xs with
  | nil => simp
  | cons c cs ih =>
    simp only [List.cons_append, List.takeWhile_cons, h c (by simp), if_true,
      List.cons.injEq, true_and]
    exact ih (fun d hd => h d (by simp [hd]))

/-- A list of satisfying characters is consumed by `dropWhile`. -/
theorem dropWhile_all_append {p : Char → Bool} {xs : List Char} (ys : List Char)
    (h : ∀ c ∈ xs, p c = true) : (xs ++ ys).dropWhile p = ys.dropWhile p := by
  induction xs with
  | nil => simp
  | cons c cs ih =>
    simp only [List.cons_append, List.dropWhile_cons, h c (by simp), if_true]
    exact ih (fun d hd => h d (by simp [hd]))

/-- A guarded suffix yields no digits to `takeWhile`. -/
theorem takeWhile_digit_guard {rest : List Char} (hg : NumGuard rest) :
    rest.takeWhile Char.isDigit = [] := by
  cases rest with
  | nil => rfl
  | cons c cs =>
    have hc : c.isDigit = false := hg
    simp [List.takeWhile_cons, hc]

/-- A guarded suffix passes through `dropWhile` untouched. -/
theorem dropWhile_digit_guard {rest : List Char} (hg : NumGuard rest) :
    rest.dropWhile Char.isDigit = rest := by
  cases rest with
  | nil => rfl
  | cons c cs =>
    have hc : c.isDigit = false := hg
    simp [List.dropWhile_cons, hc]

/-- `parseNatTok` inverts `renderNat` in front of any guarded suffix. -/
theorem parseNatTok_renderNat (n : Nat) {rest : List Char} (hg : NumGuard rest) :
    parseNatTok (renderNat n ++ rest) = some (n, rest) := by
  have htake : (renderNat n ++ rest).takeWhile Char.isDigit = renderNat n := by
    rw [takeWhile_all_append rest (renderNat_digits n), takeWhile_digit_guard hg,
      List.append_nil]
  have hdrop : (renderNat n ++ rest).dropWhile Char.isDigit = rest := by
    rw [dropWhile_all_append rest (renderNat_digits n), dropWhile_digit_guard hg]
  have hne : (renderNat n).isEmpty = false := by
    cases hr : renderNat n with
    | nil => exact absurd hr (renderNat_ne_nil n)
    | cons c cs => rfl
  simp only [parseNatTok, htake, hdrop, hne, Bool.false_eq_true, if_false,
    renderNat_foldl n]

/-- A rendered natural starts with a digit. -/
theorem renderNat_head_digit (n : Nat) :
    ∃ c cs, renderNat n = c :: cs ∧ c.isDigit = true := by
  cases hr : renderNat n with
  | nil => exact absurd hr (renderNat_ne_nil n)
  | cons c cs =>
    exact ⟨c, cs, rfl, renderNat_digits n c (by rw [hr]; exact List.mem_cons_self c cs)⟩

/-- `parseIntTok` inverts `renderInt` in front of any guarded suffix. -/
theorem parseIntTok_renderInt (n : Int) {rest : List Char} (hg : NumGuard rest) :
    parseIntTok (renderInt n ++ rest) = some (n, rest) := by
  by_cases hn : n < 0
  · have habs : -((n.natAbs : Nat) : Int) = n := by omega
    simp only [renderInt, hn, if_true, List.cons_append, parseIntTok, if_pos rfl]
    rw [parseNatTok_renderNat n.natAbs hg]
    simp [habs, abs_of_neg hn]
  · obtain ⟨c, cs, hr, hc⟩ := renderNat_head_digit n.natAbs
    have hcm : c ≠ '-' := by
      intro he; subst he; exact absurd hc (by decide)
    have habs : ((n.natAbs : Nat) : Int) = n := by omega
    simp only [renderInt, hn, if_false, hr, List.cons_append, parseIntTok, hcm,
      if_false]
    rw [← List.cons_append, ← hr, parseNatTok_renderNat n.natAbs hg]
    simp [habs]

end Keeper

namespace Keeper

/-! ## String-literal round-trip -/

/-- `hexVal?` inverts `hexDigitChar` below 16. -/
theorem hexVal_hexDigitChar {m : Nat} (h : m < 16) :
    hexVal? (hexDigitChar m) = some m := by
  interval_cases m <;> decide

/-- `parseStringBody` inverts `escapeString` up to the closing quote. -/
theorem parseStringBody_escape (s : List Char) (rest : List Char) :
    parseStringBody (escapeString s ++ '"' :: rest) = some (s, rest) := by
  induction s with
  | nil =>
    simp only [escapeString, List.flatMap_nil, List.nil_append]
    rw [parseStringBody.eq_def]
    simp
  | cons c cs ih =>
    have hesc : escapeString (c :: cs) = escapeChar c ++ escapeString cs := by
      simp [escapeString]
    rw [hesc, List.append_assoc]
    by_cases h1 : c = '"'
    · subst h1; simp only [escapeChar, if_true, List.cons_append, List.nil_append]
      rw [parseStringBody.eq_def]; simp [ih]
    · by_cases h2 : c = '\\'
      · subst h2; simp only [escapeChar, if_true, if_false, List.cons_append,
          List.nil_append, show ¬(('\\' : Char) = '"') from by decide]
        rw [parseStringBody.eq_def]; simp [ih]
      · by_cases h3 : c = '\x08'
        · subst h3; simp only [escapeChar, if_true, if_false, List.cons_append,
            List.nil_append, show ¬(('\x08' : Char) = '"') from by decide,
            show ¬(('\x08' : Char) = '\\') from by decide]
          rw [parseStringBody.eq_def]; simp [ih]
        · by_cases h4 : c = '\t'
          · subst h4; simp only [escapeChar, if_true, if_false, List.cons_append,
              List.nil_append, show ¬(('\t' : Char) = '"') from by decide,
              show ¬(('\t' : Char) = '\\') from by decide,
              show ¬(('\t' : Char) = '\x08') from by decide]
            rw [parseStringBody.eq_def]; simp [ih]
          · by_cases h5 : c = '\n'
            · subst h5; simp only [escapeChar, if_true, if_false, List.cons_append,
                List.nil_append, show ¬(('\n' : Char) = '"') from by decide,
                show ¬(('\n' : Char) = '\\') from by decide,
                show ¬(('\n' : Char) = '\x08') from by decide,
                show ¬(('\n' : Char) = '\t') from by decide]
              rw [parseStringBody.eq_def]; simp [ih]
            · by_cases h6 : c = '\x0c'
              · subst h6; simp only [escapeChar, if_true, if_false, List.cons_append,
                  List.nil_append, show ¬(('\x0c' : Char) = '"') from by decide,
                  show ¬(('\x0c' : Char) = '\\') from by decide,
                  show ¬(('\x0c' : Char) = '\x08') from by decide,
                  show ¬(('\x0c' : Char) = '\t') from by decide,
                  show ¬(('\x0c' : Char) = '\n') from by decide]
                rw [parseStringBody.eq_def]; simp [ih]
              · by_cases h7 : c = '\r'
                · subst h7; simp only [escapeChar, if_true, if_false,
                    List.cons_append, List.nil_append,
                    show ¬(('\r' : Char) = '"') from by decide,
                    show ¬(('\r' : Char) = '\\') from by decide,
                    show ¬(('\r' : Char) = '\x08') from by decide,
                    show ¬(('\r' : Char) = '\t') from by decide,
                    show ¬(('\r' : Char) = '\n') from by decide,
                    show ¬(('\r' : Char) = '\x0c') from by decide]
                  rw [parseStringBody.eq_def]; simp [ih]
                · by_cases h8 : c.toNat < 32
                  · have hq : c.toNat / 16 < 16 := by omega
                    have hm : c.toNat % 16 < 16 := by omega
                    simp only [escapeChar, h1, h2, h3, h4, h5, h6, h7, if_false, h8,
                      if_true, List.cons_append, List.nil_append]
                    rw [parseStringBody.eq_def]
                    simp only [show hexVal? '0' = some 0 from by decide,
                      hexVal_hexDigitChar hq, hexVal_hexDigitChar hm]
                    simp [ih]
                    rw [show c.toNat / 16 * 16 + c.toNat % 16 = c.toNat from by
                      omega, Char.ofNat_toNat]
                  · simp only [escapeChar, h1, h2, h3, h4, h5, h6, h7, h8, if_false,
                      List.cons_append, List.nil_append]
                    rw [parseStringBody.eq_def]
                    simp [h1, h2, h8, ih]

/-! ## Rendering decomposition and head characters -/

/-- First-item/rest decomposition of a rendered item list. -/
theorem renderItems_eq (xs : List Json) : ∀ x d,
    renderItems x xs d = indentChars d ++ (render x d ++ itemsTail xs d) := by
  induction xs with
  | nil => intro x d; simp [renderItems, itemsTail]
  | cons y ys ih =>
    intro x d
    simp [renderItems, itemsTail, ih y d]

/-- First-member/rest decomposition of a rendered member list. -/
theorem renderFields_eq (fs : List (List Char × Json)) : ∀ k v d,
    renderFields (k, v) fs d =
      indentChars d ++
        ('"' :: (escapeString k ++ '"' :: ':' :: ' ' :: render v d) ++
          fieldsTail fs d) := by
  induction fs with
  | nil => intro k v d; simp [renderFields, fieldsTail]
  | cons f fs2 ih =>
    intro k v d
    cases f with
    | mk k2 v2 => simp [renderFields, fieldsTail, ih k2 v2 d]

/-- A digit is not a closing bracket. -/
theorem digit_not_rbracket {c : Char} (h : c.isDigit = true) : c ≠ ']' := by
  intro he; subst he; exact absurd h (by decide)

/-- Every rendering starts with a non-whitespace character distinct from the
array terminator. -/
theorem render_head (v : Json) (d : Nat) :
    ∃ c cs, render v d = c :: cs ∧ isWsChar c = false ∧ c ≠ ']' := by
  cases v with
  | null => exact ⟨'n', ['u', 'l', 'l'], by simp [render], by decide, by decide⟩
  | bool b =>
    cases b with
    | true => exact ⟨'t', ['r', 'u', 'e'], by simp [render], by decide, by decide⟩
    | false =>
      exact ⟨'f', ['a', 'l', 's', 'e'], by simp [render], by decide, by decide⟩
  | num n =>
    by_cases hn : n < 0
    · exact ⟨'-', renderNat n.natAbs, by simp [render, renderInt, hn], by decide,
        by decide⟩
    · obtain ⟨c, cs, hr, hc⟩ := renderNat_head_digit n.natAbs
      exact ⟨c, cs, by simp [render, renderInt, hn, hr], digit_not_ws hc,
        digit_not_rbracket hc⟩
  | str s =>
    exact ⟨'"', escapeString s ++ ['"'], by simp [render], by decide, by decide⟩
  | arr xs =>
    cases xs with
    | nil => exact ⟨'[', [']'], by simp [render], by decide, by decide⟩
    | cons x xs2 =>
      exact ⟨'[', '\n' :: (renderItems x xs2 (d + 2) ++
        '\n' :: (indentChars d ++ [']'])), by simp [render], by decide, by decide⟩
  | obj fs =>
    cases fs with
    | nil => exact ⟨lbraceChar, [rbraceChar], by simp [render], by decide, by decide⟩
    | cons f fs2 =>
      cases f with
      | mk k v2 =>
        exact ⟨lbraceChar, '\n' :: (renderFields (k, v2) fs2 (d + 2) ++
          '\n' :: (indentChars d ++ [rbraceChar])), by simp [render], by decide,
          by decide⟩

/-- `skipWs` is the identity in front of a rendering. -/
theorem skipWs_render_append (v : Json) (d : Nat) (X : List Char) :
    skipWs (render v d ++ X) = render v d ++ X := by
  obtain ⟨c, cs, hr, hws, _⟩ := render_head v d
  rw [hr, List.cons_append, skipWs_cons_of_not_ws _ hws]

end Keeper

namespace Keeper

/-! ## Fuel-budget bounds -/

/-- `pfuel` is positive. -/
theorem pfuel_pos (v : Json) : 1 ≤ pfuel v := by
  cases v with
  | null => simp [pfuel]
  | bool b => simp [pfuel]
  | num n => simp [pfuel]
  | str s => simp [pfuel]
  | arr xs => cases xs <;> simp [pfuel]
  | obj fs =>
    cases fs with
    | nil => simp [pfuel]
    | cons f fs2 => cases f with | mk k v2 => simp [pfuel]

/-- `pfuelItems` is positive. -/
theorem pfuelItems_pos (xs : List Json) : 1 ≤ pfuelItems xs := by
  cases xs <;> simp [pfuelItems]

/-- `pfuelFields` is positive. -/
theorem pfuelFields_pos (fs : List (List Char × Json)) : 1 ≤ pfuelFields fs := by
  cases fs with
  | nil => simp [pfuelFields]
  | cons f fs2 => cases f with | mk k v2 => simp [pfuelFields]

/-- A rendering is never empty. -/
theorem render_ne_nil (v : Json) (d : Nat) : 1 ≤ (render v d).length := by
  obtain ⟨c, cs, hr, _, _⟩ := render_head v d
  simp [hr]

/-- The parser budget of a value is bounded by the length of its rendering
(and the budgets of item and member lists by their rendered tails). -/
theorem pfuel_le_render (N : Nat) :
    (∀ v : Json, sizeOf v ≤ N → ∀ d, pfuel v ≤ (render v d).length) ∧
    (∀ (x : Json) (xs : List Json), sizeOf x + sizeOf xs ≤ N → ∀ d,
      pfuelItems (x :: xs) ≤
        d + (render x d).length + (itemsTail xs d).length + 1) ∧
    (∀ (k : List Char) (v : Json) (fs : List (List Char × Json)),
      sizeOf v + sizeOf fs ≤ N → ∀ d,
      pfuelFields ((k, v) :: fs) ≤
        d + (render v d).length + (fieldsTail fs d).length + 1) := by
  induction N with
  | zero =>
    refine ⟨?_, ?_, ?_⟩
    · intro v hv
      have : 1 ≤ sizeOf v := by cases v <;> simp <;> omega
      omega
    · intro x xs hx
      have h1 : 1 ≤ sizeOf x := by cases x <;> simp <;> omega
      have h2 : 1 ≤ sizeOf xs := by cases xs <;> simp <;> omega
      omega
    · intro k v fs hv
      have h1 : 1 ≤ sizeOf v := by cases v <;> simp <;> omega
      have h2 : 1 ≤ sizeOf fs := by cases fs <;> simp <;> omega
      omega
  | succ N ih =>
    obtain ⟨ihA, ihB, ihC⟩ := ih
    refine ⟨?_, ?_, ?_⟩
    · intro v hv d
      cases v with
      | null => simp [pfuel, render]
      | bool b => cases b <;> simp [pfuel, render]
      | num n =>
        have := render_ne_nil (Json.num n) d
        have hp : pfuel (Json.num n) = 1 := by simp [pfuel]
        omega
      | str s => simp [pfuel, render]
      | arr xs =>
        cases xs with
        | nil => simp [pfuel, render]
        | cons x xs2 =>
          have hsz : sizeOf x + sizeOf xs2 ≤ N := by
            have : sizeOf (Json.arr (x :: xs2)) = 2 + sizeOf x + sizeOf xs2 := by
              simp; omega
            omega
          have hb := ihB x xs2 hsz (d + 2)
          have hlen : (render (Json.arr (x :: xs2)) d).length =
              (renderItems x xs2 (d + 2)).length + d + 4 := by
            simp [render, indentChars]; omega
          have hitems : (renderItems x xs2 (d + 2)).length =
              (d + 2) + (render x (d + 2)).length + (itemsTail xs2 (d + 2)).length := by
            rw [renderItems_eq]
            simp [indentChars]; omega
          have hp : pfuel (Json.arr (x :: xs2)) = pfuelItems (x :: xs2) + 1 := by
            simp [pfuel]
          omega
      | obj fs =>
        cases fs with
        | nil => simp [pfuel, render]
        | cons f fs2 =>
          cases f with
          | mk k v2 =>
            have hsz : sizeOf v2 + sizeOf fs2 ≤ N := by
              have h1 : sizeOf (Json.obj ((k, v2) :: fs2)) =
                  3 + sizeOf k + sizeOf v2 + sizeOf fs2 := by
                simp; omega
              have h2 : 1 ≤ sizeOf k := by cases k <;> simp <;> omega
              omega
            have hc := ihC k v2 fs2 hsz (d + 2)
            have hlen : (render (Json.obj ((k, v2) :: fs2)) d).length =
                (renderFields (k, v2) fs2 (d + 2)).length + d + 4 := by
              simp [render, indentChars]; omega
            have hfields : (renderFields (k, v2) fs2 (d + 2)).length =
                (d + 2) + (escapeString k).length + 4 + (render v2 (d + 2)).length +
                  (fieldsTail fs2 (d + 2)).length := by
              rw [renderFields_eq]
              simp [indentChars]; omega
            have hp : pfuel (Json.obj ((k, v2) :: fs2)) =
                pfuelFields ((k, v2) :: fs2) + 1 := by
              simp [pfuel]
            omega
    · intro x xs hx d
      have hszx : sizeOf x ≤ N := by
        have : 1 ≤ sizeOf xs := by cases xs <;> simp <;> omega
        omega
      have hA := ihA x hszx d
      have hp : pfuelItems (x :: xs) = max (pfuel x) (pfuelItems xs) + 1 := by
        simp [pfuelItems]
      cases xs with
      | nil =>
        have h1 : pfuelItems ([] : List Json) = 1 := by simp [pfuelItems]
        have := render_ne_nil x d
        omega
      | cons y ys =>
        have hsz2 : sizeOf y + sizeOf ys ≤ N := by
          have h1 : sizeOf (y :: ys) = 1 + sizeOf y + sizeOf ys := by simp
          have h2 : 1 ≤ sizeOf x := by cases x <;> simp <;> omega
          omega
        have hB := ihB y ys hsz2 d
        have htail : (itemsTail (y :: ys) d).length =
            2 + d + (render y d).length + (itemsTail ys d).length := by
          simp [itemsTail, indentChars]; omega
        omega
    · intro k v fs hv d
      have hszv : sizeOf v ≤ N := by
        have : 1 ≤ sizeOf fs := by cases fs <;> simp <;> omega
        omega
      have hA := ihA v hszv d
      have hp : pfuelFields ((k, v) :: fs) = max (pfuel v) (pfuelFields fs) + 1 := by
        simp [pfuelFields]
      cases fs with
      | nil =>
        have h1 : pfuelFields ([] : List (List Char × Json)) = 1 := by
          simp [pfuelFields]
        have := render_ne_nil v d
        omega
      | cons f fs2 =>
        cases f with
        | mk k2 v2 =>
          have hsz2 : sizeOf v2 + sizeOf fs2 ≤ N := by
            have h1 : sizeOf ((k2, v2) :: fs2) =
                2 + sizeOf k2 + sizeOf v2 + sizeOf fs2 := by
              simp; omega
            have h2 : 1 ≤ sizeOf v := by cases v <;> simp <;> omega
            have h3 : 1 ≤ sizeOf k2 := by cases k2 <;> simp <;> omega
            omega
          have hC := ihC k2 v2 fs2 hsz2 d
          have htail : (fieldsTail ((k2, v2) :: fs2) d).length =
              d + (escapeString k2).length + (render v2 d).length +
                (fieldsTail fs2 d).length + 6 := by
            simp [fieldsTail, indentChars]; omega
          omega

end Keeper

namespace Keeper

/-! ## Head characters of numerals -/

/-- Head character of a rendered integer numeral. -/
theorem renderInt_head (n : Int) :
    ∃ c cs, renderInt n = c :: cs ∧ (c = '-' ∨ c.isDigit = true) := by
  by_cases hn : n < 0
  · exact ⟨'-', renderNat n.natAbs, by simp [renderInt, hn], Or.inl rfl⟩
  · obtain ⟨c, cs, hr, hc⟩ := renderNat_head_digit n.natAbs
    exact ⟨c, cs, by simp [renderInt, hn, hr], Or.inr hc⟩

/-- A numeral head is none of the keyword, string, array or object heads. -/
theorem num_head_ne {c : Char} (h : c = '-' ∨ c.isDigit = true) :
    c ≠ 'n' ∧ c ≠ 't' ∧ c ≠ 'f' ∧ c ≠ '"' ∧ c ≠ '[' ∧ c ≠ lbraceChar := by
  rcases h with h | h
  · subst h
    exact ⟨by decide, by decide, by decide, by decide, by decide, by decide⟩
  · refine ⟨?_, ?_, ?_, ?_, ?_, ?_⟩ <;> intro he <;> subst he <;>
      exact absurd h (by decide)

end Keeper

namespace Keeper

/-- The parser inverts the renderer: with fuel at least the value's budget,
a whitespace-led rendering followed by a guarded suffix parses back to the
value, and the corresponding statements hold for the item lists of arrays
and the member lists of objects. -/
theorem parse_render (fuel : Nat) :
    (∀ (v : Json) (d : Nat) (ws rest : List Char), AllWs ws → pfuel v ≤ fuel →
      NumGuard rest →
      parseVal fuel (ws ++ (render v d ++ rest)) = some (v, rest)) ∧
    (∀ (x : Json) (xs : List Json) (d : Nat) (ws ws2 rest : List Char),
      AllWs ws → AllWs ws2 → pfuelItems (x :: xs) ≤ fuel →
      parseItems fuel
        (ws ++ (render x d ++ (itemsTail xs d ++ (ws2 ++ (']' :: rest))))) =
        some (x :: xs, rest)) ∧
    (∀ (k : List Char) (v : Json) (fs : List (List Char × Json)) (d : Nat)
        (ws ws2 rest : List Char),
      AllWs ws → AllWs ws2 → pfuelFields ((k, v) :: fs) ≤ fuel →
      parseFields fuel
        (ws ++ ('"' :: (escapeString k ++ ('"' :: ':' :: ' ' ::
          (render v d ++ (fieldsTail fs d ++ (ws2 ++ (rbraceChar :: rest)))))))) =
        some ((k, v) :: fs, rest)) := by
  induction fuel with
  | zero =>
    refine ⟨?_, ?_, ?_⟩
    · intro v _ _ _ _ hf _
      have := pfuel_pos v
      omega
    · intro x xs _ _ _ _ _ _ hf
      have := pfuelItems_pos (x :: xs)
      omega
    · intro k v fs _ _ _ _ _ _ hf
      have := pfuelFields_pos ((k, v) :: fs)
      omega
  | succ fuel ih =>
    obtain ⟨ihA, ihB, ihC⟩ := ih
    refine ⟨?_, ?_, ?_⟩
    · intro v d ws rest hws hfuel hg
      have hskip : skipWs (ws ++ (render v d ++ rest)) = render v d ++ rest := by
        rw [skipWs_append_ws _ hws, skipWs_render_append]
      simp only [parseVal]
      rw [hskip]
      cases v with
      | null => simp [render]
      | bool b => cases b <;> simp [render]
      | num n =>
        obtain ⟨c, cs, hrend, hc⟩ := renderInt_head n
        obtain ⟨hn1, hn2, hn3, hn4, hn5, hn6⟩ := num_head_ne hc
        have hrv : render (Json.num n) d = renderInt n := by simp [render]
        rw [hrv, hrend]
        simp only [List.cons_append]
        have hcond : (decide (c = '-') || c.isDigit) = true := by
          rcases hc with h | h
          · simp [h]
          · simp [h]
        simp only [hn1, hn2, hn3, hn4, hn5, hn6, if_false, hcond, if_true]
        rw [← List.cons_append, ← hrend, parseIntTok_renderInt n hg]
        simp
      | str s =>
        have hrv : render (Json.str s) d = '"' :: (escapeString s ++ ['"']) := by
          simp [render]
        rw [hrv]
        simp only [List.cons_append, List.append_assoc, List.singleton_append]
        simp [parseStringBody_escape s rest]
      | arr xs =>
        cases xs with
        | nil =>
          have hrv : render (Json.arr []) d = ['[', ']'] := by simp [render]
          rw [hrv]
          simp only [List.cons_append, List.nil_append]
          simp [show skipWs (']' :: rest) = ']' :: rest from
            skipWs_cons_of_not_ws rest (by decide)]
        | cons x xs =>
          obtain ⟨c1, cs1, hxr, hxws, hxne⟩ := render_head x (d + 2)
          have hfuel2 : pfuelItems (x :: xs) ≤ fuel := by
            have hp : pfuel (Json.arr (x :: xs)) = pfuelItems (x :: xs) + 1 := by
              simp [pfuel]
            omega
          have hrv : render (Json.arr (x :: xs)) d =
              '[' :: '\n' :: (renderItems x xs (d + 2) ++
                '\n' :: (indentChars d ++ [']'])) := by
            simp [render]
          rw [hrv, renderItems_eq]
          simp only [List.cons_append, List.append_assoc, List.singleton_append]
          have hskip2 : skipWs ('\n' :: (indentChars (d + 2) ++ (render x (d + 2) ++
              (itemsTail xs (d + 2) ++ ('\n' :: (indentChars d ++ ']' :: rest)))))) =
              render x (d + 2) ++ (itemsTail xs (d + 2) ++
                ('\n' :: (indentChars d ++ ']' :: rest))) := by
            rw [skipWs_cons_of_ws _ (by decide),
              skipWs_append_ws _ (allWs_indentChars _), skipWs_render_append]
          have hB := ihB x xs (d + 2) [] ('\n' :: indentChars d) rest allWs_nil
            (allWs_newline_indent d) hfuel2
          simp only [List.nil_append, List.cons_append, List.append_assoc] at hB
          rw [hxr]
          rw [hxr] at hskip2 hB
          simp only [List.cons_append] at hskip2 hB
          simp [hskip2, hxne, hB]
      | obj fs =>
        cases fs with
        | nil =>
          have hrv : render (Json.obj []) d = [lbraceChar, rbraceChar] := by
            simp [render]
          rw [hrv]
          simp only [List.cons_append, List.nil_append]
          simp [show skipWs (rbraceChar :: rest) = rbraceChar :: rest from
            skipWs_cons_of_not_ws rest (by decide),
            show ¬(lbraceChar = 'n') from by decide,
            show ¬(lbraceChar = 't') from by decide,
            show ¬(lbraceChar = 'f') from by decide,
            show ¬(lbraceChar = '"') from by decide,
            show ¬(lbraceChar = '[') from by decide,
            show ¬(rbraceChar = ']') from by decide]
        | cons f fs =>
          cases f with
          | mk k v2 =>
            have hfuel2 : pfuelFields ((k, v2) :: fs) ≤ fuel := by
              have hp : pfuel (Json.obj ((k, v2) :: fs)) =
                  pfuelFields ((k, v2) :: fs) + 1 := by
                simp [pfuel]
              omega
            have hrv : render (Json.obj ((k, v2) :: fs)) d =
                lbraceChar :: '\n' :: (renderFields (k, v2) fs (d + 2) ++
                  '\n' :: (indentChars d ++ [rbraceChar])) := by
              simp [render]
            rw [hrv, renderFields_eq]
            simp only [List.cons_append, List.append_assoc, List.singleton_append]
            have hskip2 : skipWs ('\n' :: (indentChars (d + 2) ++
                ('"' :: (escapeString k ++ ('"' :: ':' :: ' ' ::
                  (render v2 (d + 2) ++ (fieldsTail fs (d + 2) ++
                    ('\n' :: (indentChars d ++ rbraceChar :: rest))))))))) =
                '"' :: (escapeString k ++ ('"' :: ':' :: ' ' ::
                  (render v2 (d + 2) ++ (fieldsTail fs (d + 2) ++
                    ('\n' :: (indentChars d ++ rbraceChar :: rest)))))) := by
              rw [skipWs_cons_of_ws _ (by decide),
                skipWs_append_ws _ (allWs_indentChars _),
                skipWs_cons_of_not_ws _ (by decide)]
            have hC := ihC k v2 fs (d + 2) [] ('\n' :: indentChars d) rest allWs_nil
              (allWs_newline_indent d) hfuel2
            simp only [List.nil_append, List.cons_append, List.append_assoc] at hC
            simp [hskip2, hC,
              show ¬(lbraceChar = 'n') from by decide,
              show ¬(lbraceChar = 't') from by decide,
              show ¬(lbraceChar = 'f') from by decide,
              show ¬(lbraceChar = '"') from by decide,
              show ¬(lbraceChar = '[') from by decide,
              show ¬(('"' : Char) = rbraceChar) from by decide]
    · intro x xs d ws ws2 rest hws hws2 hfuel
      simp only [parseItems]
      have hxfuel : pfuel x ≤ fuel := by
        have hp : pfuelItems (x :: xs) = max (pfuel x) (pfuelItems xs) + 1 := by
          simp [pfuelItems]
        omega
      have hguard : NumGuard (itemsTail xs d ++ (ws2 ++ (']' :: rest))) := by
        cases xs with
        | nil =>
          simp only [itemsTail, List.nil_append]
          exact numGuard_append_ws _ hws2 (numGuard_cons _ (by decide))
        | cons y ys =>
          simp only [itemsTail, List.cons_append]
          exact numGuard_cons _ (by decide)
      have hA := ihA x d ws (itemsTail xs d ++ (ws2 ++ (']' :: rest))) hws hxfuel
        hguard
      rw [hA]
      cases xs with
      | nil =>
        simp only [itemsTail, List.nil_append]
        have hsk : skipWs (ws2 ++ (']' :: rest)) = ']' :: rest := by
          rw [skipWs_append_ws _ hws2, skipWs_cons_of_not_ws _ (by decide)]
        rw [hsk]
        simp
      | cons y ys =>
        have hfuel3 : pfuelItems (y :: ys) ≤ fuel := by
          have hp : pfuelItems (x :: y :: ys) =
              max (pfuel x) (pfuelItems (y :: ys)) + 1 := by
            simp [pfuelItems]
          omega
        simp only [itemsTail, List.cons_append, List.append_assoc]
        have hsk : skipWs (',' :: '\n' :: (indentChars d ++ (render y d ++
            (itemsTail ys d ++ (ws2 ++ (']' :: rest)))))) =
            ',' :: '\n' :: (indentChars d ++ (render y d ++
            (itemsTail ys d ++ (ws2 ++ (']' :: rest))))) :=
          skipWs_cons_of_not_ws _ (by decide)
        rw [hsk]
        have hB := ihB y ys d ('\n' :: indentChars d) ws2 rest
          (allWs_newline_indent d) hws2 hfuel3
        simp only [List.cons_append, List.append_assoc] at hB
        simp [hB]
    · intro k v fs d ws ws2 rest hws hws2 hfuel
      simp only [parseFields]
      have hvfuel : pfuel v ≤ fuel := by
        have hp : pfuelFields ((k, v) :: fs) = max (pfuel v) (pfuelFields fs) + 1 := by
          simp [pfuelFields]
        omega
      have hskip : skipWs (ws ++ ('"' :: (escapeString k ++ ('"' :: ':' :: ' ' ::
          (render v d ++ (fieldsTail fs d ++ (ws2 ++ (rbraceChar :: rest)))))))) =
          '"' :: (escapeString k ++ ('"' :: ':' :: ' ' ::
          (render v d ++ (fieldsTail fs d ++ (ws2 ++ (rbraceChar :: rest)))))) := by
        rw [skipWs_append_ws _ hws, skipWs_cons_of_not_ws _ (by decide)]
      rw [hskip]
      have hstr := parseStringBody_escape k
        (':' :: ' ' :: (render v d ++ (fieldsTail fs d ++ (ws2 ++ (rbraceChar :: rest)))))
      have hguard : NumGuard (fieldsTail fs d ++ (ws2 ++ (rbraceChar :: rest))) := by
        cases fs with
        | nil =>
          simp only [fieldsTail, List.nil_append]
          exact numGuard_append_ws _ hws2 (numGuard_cons _ (by decide))
        | cons f fs2 =>
          cases f with
          | mk k2 v2 =>
            simp only [fieldsTail, List.cons_append]
            exact numGuard_cons _ (by decide)
      have hA := ihA v d [' ']
        (fieldsTail fs d ++ (ws2 ++ (rbraceChar :: rest)))
        (by intro c hc; simp at hc; subst hc; decide) hvfuel hguard
      simp only [List.cons_append, List.nil_append] at hA
      have hsk2 : skipWs (':' :: ' ' :: (render v d ++ (fieldsTail fs d ++
          (ws2 ++ (rbraceChar :: rest))))) =
          ':' :: ' ' :: (render v d ++ (fieldsTail fs d ++
          (ws2 ++ (rbraceChar :: rest)))) :=
        skipWs_cons_of_not_ws _ (by decide)
      cases fs with
      | nil =>
        have hsk3 : skipWs (fieldsTail [] d ++ (ws2 ++ (rbraceChar :: rest))) =
            rbraceChar :: rest := by
          simp only [fieldsTail, List.nil_append]
          rw [skipWs_append_ws _ hws2, skipWs_cons_of_not_ws _ (by decide)]
        simp [hstr, hsk2, hA, hsk3,
          show ¬(rbraceChar = ',') from by decide]
      | cons f fs2 =>
        cases f with
        | mk k2 v2 =>
          have hfuel3 : pfuelFields ((k2, v2) :: fs2) ≤ fuel := by
            have hp : pfuelFields ((k, v) :: (k2, v2) :: fs2) =
                max (pfuel v) (pfuelFields ((k2, v2) :: fs2)) + 1 := by
              simp [pfuelFields]
            omega
          have hsk3 : skipWs (fieldsTail ((k2, v2) :: fs2) d ++
              (ws2 ++ (rbraceChar :: rest))) =
              fieldsTail ((k2, v2) :: fs2) d ++ (ws2 ++ (rbraceChar :: rest)) := by
            simp only [fieldsTail, List.cons_append]
            exact skipWs_cons_of_not_ws _ (by decide)
          have hC := ihC k2 v2 fs2 d ('\n' :: indentChars d) ws2 rest
            (allWs_newline_indent d) hws2 hfuel3
          simp only [List.cons_append, List.append_assoc] at hC
          simp only [hstr]
          simp [hsk2, hA, hsk3]
          simp only [fieldsTail, List.cons_append, List.append_assoc]
          simp [hC]

end Keeper

namespace Keeper

/-- Parsing a pretty-printed value returns exactly that value. -/
theorem parseJson_render (v : Json) : parseJson (render v 0) = some v := by
  have hb := (pfuel_le_render (sizeOf v)).1 v le_rfl 0
  have hA := (parse_render ((render v 0).length + 1)).1 v 0 [] [] allWs_nil
    (by omega) trivial
  simp only [List.nil_append, List.append_nil] at hA
  simp [parseJson, hA, skipWs]

/-- C9: `loadTaskRegistry` returns the empty array whenever the tasks file
is missing, unreadable, or fails to parse as JSON; being a total function of
the file state, it never throws or propagates an error to its caller. -/
theorem loadTaskRegistry_failure_empty :
    loadTaskRegistry .absent = .arr [] ∧
    loadTaskRegistry .unreadable = .arr [] ∧
    ∀ s, parseJson s = none → loadTaskRegistry (.content s) = .arr [] := by
  refine ⟨rfl, rfl, ?_⟩
  intro s hs
  simp [loadTaskRegistry, hs]

/-- Witness for C9 at a concrete unparsable file content. -/
theorem loadTaskRegistry_failure_empty_witness :
    parseJson ['x'] = none ∧ loadTaskRegistry (.content ['x']) = .arr [] :=
  ⟨rfl, loadTaskRegistry_failure_empty.2.2 ['x'] rfl⟩

/-- C10: a successful `saveTaskRegistry` followed by `loadTaskRegistry`
returns an array equal to the saved task list. -/
theorem save_then_load_roundtrip (fs : FileState) (tasks : List Json) (ok : Bool)
    (hsaved : (saveTaskRegistry fs tasks ok).2 = true) :
    loadTaskRegistry (saveTaskRegistry fs tasks ok).1 = .arr tasks := by
  cases ok with
  | false => simp [saveTaskRegistry] at hsaved
  | true =>
    simp only [saveTaskRegistry, if_true]
    simp [loadTaskRegistry, jsonStringify, parseJson_render]

/-- Witness for C10 at a concrete task list. -/
theorem save_then_load_roundtrip_witness :
    (saveTaskRegistry .absent
        [Json.obj [(['i', 'd'], Json.num 1),
          (['s', 't', 'a', 't', 'u', 's'], Json.str ['a', 'c', 't', 'i', 'v', 'e'])]]
        true).2 = true ∧
    loadTaskRegistry
        (saveTaskRegistry .absent
          [Json.obj [(['i', 'd'], Json.num 1),
            (['s', 't', 'a', 't', 'u', 's'],
              Json.str ['a', 'c', 't', 'i', 'v', 'e'])]] true).1 =
      .arr [Json.obj [(['i', 'd'], Json.num 1),
        (['s', 't', 'a', 't', 'u', 's'], Json.str ['a', 'c', 't', 'i', 'v', 'e'])]] :=
  ⟨rfl, save_then_load_roundtrip .absent
    [Json.obj [(['i', 'd'], Json.num 1),
      (['s', 't', 'a', 't', 'u', 's'], Json.str ['a', 'c', 't', 'i', 'v', 'e'])]]
    true rfl⟩

end Keeper
